import Mathlib

/-!
# go-fltk-sane: the option parser, the device-list parser and the small helpers of `lib.go`

A shallow embedding of the pure parts of `lib.go`.

Modelling conventions

* A Go `string` is a `List Char` (`GoString`): the list of its code points.  The
  embedding covers strings that are valid UTF-8, on which the byte-oriented
  library functions used here (`strings.Split`, `strings.TrimSpace`,
  `filepath.Ext`, the regular expression) act code point by code point.
* A Go `map[string]V` is a function `GoString → Option V` (`GoMap V`); `none`
  means that the key is absent.
* The functions of the Go standard library are embedded from their Go source
  (`strings.Index`, `strings.Split`, `strings.TrimSpace`, `unicode.IsSpace`,
  `filepath.Ext` on a Unix system), the regular expression by a backtracking
  matcher, which is the reference meaning of the leftmost-first matching of Go's
  `regexp` package.
-/

namespace GoFltkSane

/-! ## Strings and maps -/

/-- A Go string, as the list of its code points. -/
abbrev GoString := List Char

/-- A Go `map[string]V`. -/
abbrev GoMap (V : Type) := GoString → Option V

/-- The map made by `make(map[string]V)`. -/
def GoMap.empty {V : Type} : GoMap V := fun _ => none

/-- The assignment `m[k] = v`. -/
def GoMap.set {V : Type} (m : GoMap V) (k : GoString) (v : V) : GoMap V :=
  fun k' => if k' = k then some v else m k'

/-! ## `unicode.IsSpace` and `strings.TrimSpace` -/

/-- Go's `unicode.IsSpace`: in Latin-1 the characters `\t \n \v \f \r`, space,
U+0085 and U+00A0; above Latin-1 the code points of the `White_Space` table. -/
def unicode_IsSpace (r : Char) : Bool :=
  let n := r.toNat
  if n ≤ 0xFF then
    decide (n = 0x09 ∨ n = 0x0A ∨ n = 0x0B ∨ n = 0x0C ∨ n = 0x0D ∨ n = 0x20 ∨ n = 0x85 ∨ n = 0xA0)
  else
    decide (n = 0x1680 ∨ (0x2000 ≤ n ∧ n ≤ 0x200A) ∨ n = 0x2028 ∨ n = 0x2029 ∨ n = 0x202F
      ∨ n = 0x205F ∨ n = 0x3000)

/-- Go's `strings.TrimSpace`: the string without its leading and trailing white
space. -/
def strings_TrimSpace (s : GoString) : GoString :=
  (s.dropWhile unicode_IsSpace).rdropWhile unicode_IsSpace

/-! ## `strings.Index` and `strings.Split` -/

/-- Go's `strings.Index`: the position of the first occurrence of `substr` in
`s`, `none` standing for `-1`. -/
def strings_Index : GoString → GoString → Option Nat
  | [], substr => if substr = [] then some 0 else none
  | c :: cs, substr =>
    if substr.isPrefixOf (c :: cs) then some 0
    else (strings_Index cs substr).map (· + 1)

/-- The loop of Go's `genSplit` for a non-empty separator: cut at the first
occurrence of `sep`, continue behind it, and end with the remainder when `sep`
no longer occurs.  Go bounds the number of rounds by `Count(s, sep)`; here the
bound is the first argument. -/
def genSplitLoop (sep : GoString) : Nat → GoString → List GoString
  | 0, s => [s]
  | n + 1, s =>
    match strings_Index s sep with
    | none => [s]
    | some m => s.take m :: genSplitLoop sep n (s.drop (m + sep.length))

/-- Go's `strings.Split(s, sep)`.  With an empty separator the string is
exploded into its code points; otherwise it is cut at every occurrence of the
separator, found from left to right without overlap.  The number of
occurrences is at most `s.length`, so the bound handed to the loop is never
used up (`genSplitLoop_fuel`). -/
def strings_Split (s sep : GoString) : List GoString :=
  if sep = [] then s.map (fun c => [c]) else genSplitLoop sep s.length s

/-! ## The regular expression `^(.*) \[(.*)\]$` -/

/-- The pieces a pattern of the shape used by the parser is made of. -/
inductive ReItem where
  /-- The group `(.*)`: as many characters other than a newline as possible. -/
  | anyStarGroup : ReItem
  /-- A literal character. -/
  | lit : Char → ReItem
  /-- The anchor `$`: the end of the text. -/
  | endText : ReItem
  deriving DecidableEq, Repr

/-- The first `some` among `f n, f (n - 1), ..., f 0`: a greedy repetition tries
the longest repetition first and backs off one character at a time. -/
def tryLongest {α : Type} (f : Nat → Option α) : Nat → Option α
  | 0 => f 0
  | k + 1 =>
    match f (k + 1) with
    | some r => some r
    | none => tryLongest f k

/-- Backtracking match of a pattern at the start of `s` (the anchor `^`): the
texts of the groups of the first match found, `none` when there is none. -/
def reMatch : List ReItem → GoString → Option (List GoString)
  | [], _ => some []
  | ReItem.lit c :: p, s =>
    match s with
    | [] => none
    | x :: xs => if x = c then reMatch p xs else none
  | ReItem.endText :: p, s => if s = [] then reMatch p s else none
  | ReItem.anyStarGroup :: p, s =>
    tryLongest (fun k => (reMatch p (s.drop k)).map (fun caps => s.take k :: caps))
      (s.takeWhile (fun c => decide (c ≠ '\n'))).length

/-- The pattern compiled by `parseDeviceOptionConstraints`. -/
def optionRe : List ReItem :=
  [ReItem.anyStarGroup, ReItem.lit ' ', ReItem.lit '[', ReItem.anyStarGroup, ReItem.lit ']',
    ReItem.endText]

/-- The call `r.FindStringSubmatch(s)` for `r = optionRe`: the empty slice when
`s` does not match, otherwise the matched text (all of `s`, the pattern being
anchored at both ends) followed by the texts of the two groups. -/
def FindStringSubmatch (s : GoString) : List GoString :=
  match reMatch optionRe s with
  | some caps => s :: caps
  | none => []

/-! ## `parseDeviceOptionConstraints` -/

/-- The two maps built by `parseDeviceOptionConstraints`. -/
structure ParseState where
  results : GoMap (List GoString)
  defaults : GoMap GoString

/-- The statement `results[k] = append(results[k], v)`; a missing key reads as
the nil slice. -/
def appendResult (results : GoMap (List GoString)) (k v : GoString) : GoMap (List GoString) :=
  results.set k ((results k).getD [] ++ [v])

/-- The inner loop `for i, constraint := range constraints`, from index `i` on;
`n` is `len(constraints)`. -/
def constraintsLoop (parsedOpt : GoString) (n : Nat) :
    Nat → List GoString → ParseState → ParseState
  | _, [], st => st
  | i, constraint :: rest, st =>
    if i = n - 1 then
      match FindStringSubmatch constraint with
      | [_, m1, m2] =>
        constraintsLoop parsedOpt n (i + 1) rest
          { results := appendResult st.results parsedOpt (strings_TrimSpace m1),
            defaults := st.defaults.set parsedOpt m2 }
      | _ => constraintsLoop parsedOpt n (i + 1) rest st
    else
      constraintsLoop parsedOpt n (i + 1) rest
        { st with results := appendResult st.results parsedOpt (strings_TrimSpace constraint) }

/-- The body of the outer loop `for _, opt := range out`. -/
def parseLine (st : ParseState) (line : GoString) : ParseState :=
  let opt := strings_TrimSpace line
  let expanded := strings_Split opt [' ']
  let parsedOpt := expanded.getD 0 []
  if expanded.length ≤ 1 then st
  else
    let withoutOpt := (strings_Split opt parsedOpt).getD 1 []
    let constraints := strings_Split withoutOpt ['|']
    if constraints.length = 0 then st
    else
      constraintsLoop parsedOpt constraints.length 0 constraints
        { st with results := st.results.set parsedOpt [] }

/-- The function `parseDeviceOptionConstraints` of `lib.go`. -/
def parseDeviceOptionConstraints (out : List GoString) : ParseState :=
  out.foldl parseLine { results := GoMap.empty, defaults := GoMap.empty }

/-! ## `isPortrait` -/

/-- The function `isPortrait` of `lib.go`, seen as a function of the width and
height that `fltk.ScreenWorkArea` reports. -/
def isPortrait (width height : Int) : Except String Bool :=
  if width = 0 ∨ height = 0 then
    Except.error "received 0 for one of screen height or width"
  else if width > height then
    Except.ok false
  else
    Except.ok true

/-! ## `getDevices` -/

/-- The type `ScannerDevice` of `lib.go` (the field `Type` is written `Type_`,
`Type` being reserved). -/
structure ScannerDevice where
  Device : GoString
  Vendor : GoString
  Model : GoString
  Type_ : GoString
  Index : GoString
  deriving DecidableEq, Repr

/-- The value `ScannerDevice{}`. -/
def ScannerDevice.zero : ScannerDevice :=
  { Device := [], Vendor := [], Model := [], Type_ := [], Index := [] }

/-- The `switch i` of `getDevices`: field number `i` receives `v`. -/
def setField (newScanner : ScannerDevice) (i : Nat) (v : GoString) : ScannerDevice :=
  match i with
  | 0 => { newScanner with Device := v }
  | 1 => { newScanner with Vendor := v }
  | 2 => { newScanner with Model := v }
  | 3 => { newScanner with Type_ := v }
  | 4 => { newScanner with Index := v }
  | _ => newScanner

/-- The loop `for i := range values` of `getDevices`, from index `i` on. -/
def fieldsLoop : Nat → List GoString → ScannerDevice → ScannerDevice
  | _, [], newScanner => newScanner
  | i, v :: vs, newScanner => fieldsLoop (i + 1) vs (setField newScanner i v)

/-- The body of the loop `for _, outLine := range outLines` of `getDevices`. -/
def deviceStep (scanners : List ScannerDevice) (outLine : GoString) : List ScannerDevice :=
  let values := strings_Split outLine ['|', '|']
  let newScanner := fieldsLoop 0 values ScannerDevice.zero
  if newScanner.Device = [] then scanners else scanners ++ [newScanner]

/-- The function `getDevices` of `lib.go` from the point where the command has
succeeded, seen as a function of the text `ob` that the command wrote. -/
def getDevices (ob : GoString) : List ScannerDevice :=
  (strings_Split ob [';', ';', ';']).foldl deviceStep []

/-! ## `RunCommand` -/

/-- The three stream fields of `exec.Cmd`; a stream is named by a number and
`none` is Go's `nil`. -/
structure Cmd where
  Stdin : Option Nat
  Stdout : Option Nat
  Stderr : Option Nat
  deriving DecidableEq, Repr

/-- The command as `RunCommand` has set it up when it calls `cmd.Run()`:
`exec.Command` leaves the three streams nil, then the three `if` statements
run. -/
def RunCommand (stdin stdout stderr : Option Nat) : Cmd :=
  let cmd : Cmd := { Stdin := none, Stdout := none, Stderr := none }
  let cmd := if stdin ≠ none then { cmd with Stdin := stdin } else cmd
  let cmd := if stdout ≠ none then { cmd with Stdout := stdout } else cmd
  let cmd := if stderr ≠ none then { cmd with Stderr := stdout } else cmd
  cmd

/-! ## `filepath.Ext` and `getFileType` -/

/-- The loop of Go's `filepath.Ext` on a Unix system: `before` holds
`path[0..i]` backwards, `after` is `path[i+1..]`. -/
def extLoop : GoString → GoString → GoString
  | [], _ => []
  | c :: before, after =>
    if c = '/' then []
    else if c = '.' then c :: after
    else extLoop before (c :: after)

/-- Go's `filepath.Ext` on a Unix system. -/
def filepath_Ext (path : GoString) : GoString :=
  extLoop path.reverse []

/-- The function `getFileType` of `lib.go`. -/
def getFileType (s : GoString) : GoString :=
  let ext := filepath_Ext s
  if ext = ['.', 'p', 'n', 'g'] then ext
  else if ext = ['.', 'j', 'p', 'g'] then ext
  else if ext = ['.', 'j', 'p', 'e', 'g'] then ext
  else if ext = ['.', 'p', 'd', 'f'] then ext
  else []

/-! ## The words of the specification -/

/-- The last element of a path: the text behind its last `/`. -/
def lastPathElement (s : GoString) : GoString :=
  (s.reverse.takeWhile (fun c => decide (c ≠ '/'))).reverse

/-- The extension of a file name as the specification words it: the text from
the last `.` of the last path element on, nothing when there is no `.`. -/
def extensionOf (s : GoString) : GoString :=
  let e := lastPathElement s
  if '.' ∈ e then '.' :: (e.reverse.takeWhile (fun c => decide (c ≠ '.'))).reverse else []

/-- The four extensions that `getFileType` knows. -/
def knownExtensions : List GoString :=
  [['.', 'p', 'n', 'g'], ['.', 'j', 'p', 'g'], ['.', 'j', 'p', 'e', 'g'], ['.', 'p', 'd', 'f']]

/-- The format names of the docstring of `getFileType`. -/
def formatNames : List GoString :=
  [['p', 'n', 'g'], ['j', 'p', 'g'], ['j', 'p', 'e', 'g'], ['p', 'd', 'f']]

/-- The device that a record of the device list describes: its first five
`||`-separated fields, a missing field being the empty string. -/
def recordDevice (record : GoString) : ScannerDevice :=
  let fields := strings_Split record ['|', '|']
  { Device := fields.getD 0 [], Vendor := fields.getD 1 [], Model := fields.getD 2 [],
    Type_ := fields.getD 3 [], Index := fields.getD 4 [] }

/-- The first `||`-separated field of a record. -/
def firstField (record : GoString) : GoString :=
  (strings_Split record ['|', '|']).getD 0 []


/-- A line of the option listing as the specification describes it: the name of
the option, its listed values and its current value. -/
structure OptionLine where
  name : GoString
  values : List GoString
  current : GoString
  deriving DecidableEq, Repr

/-- The text of a line behind the option name: a blank, the values separated by
`|`, then ` [`, the current value and `]`. -/
def OptionLine.rest (l : OptionLine) : GoString :=
  [' '] ++ List.intercalate ['|'] l.values ++ [' ', '['] ++ l.current ++ [']']

/-- The text of a line: `name v1|...|vn [d]`. -/
def OptionLine.text (l : OptionLine) : GoString :=
  l.name ++ l.rest

/-- A text that may stand as a value or as the current value of a well-formed
line: it holds no `|`, no newline and nowhere the two characters ` [`. -/
def plainValue (v : GoString) : Prop :=
  '|' ∉ v ∧ '\n' ∉ v ∧ ¬ [' ', '['] <:+: v

instance (v : GoString) : Decidable (plainValue v) := by
  unfold plainValue
  infer_instance

/-- A well-formed line: at least one value, a non-empty name without white
space that does not occur in the rest of the line, and plain values. -/
def OptionLine.WellFormed (l : OptionLine) : Prop :=
  l.values ≠ [] ∧ l.name ≠ [] ∧ (∀ c ∈ l.name, unicode_IsSpace c = false) ∧
    ¬ l.name <:+: l.rest ∧ plainValue l.current ∧ ∀ v ∈ l.values, plainValue v

instance (l : OptionLine) : Decidable l.WellFormed := by
  unfold OptionLine.WellFormed
  infer_instance


/-- A line that reports no option: once trimmed it holds no blank, so that it
has fewer than two fields. -/
def SkippedLine (line : GoString) : Prop :=
  ' ' ∉ strings_TrimSpace line

instance (line : GoString) : Decidable (SkippedLine line) := by
  unfold SkippedLine
  infer_instance

/-- A line that ends in a bracketed current value: `name mid [d]` where the
name is non-empty, holds no white space and does not occur in the rest of the
line, `mid` is empty or begins with a blank, `mid` and `d` hold no newline and
`d` holds no `|`. -/
def BracketedLine (line : GoString) : Prop :=
  ∃ name mid d : GoString,
    line = name ++ mid ++ [' ', '['] ++ d ++ [']'] ∧ name ≠ [] ∧
      (∀ c ∈ name, unicode_IsSpace c = false) ∧ (mid = [] ∨ ∃ m, mid = ' ' :: m) ∧
      ¬ name <:+: mid ++ [' ', '['] ++ d ++ [']'] ∧ '\n' ∉ mid ∧ '\n' ∉ d ∧ '|' ∉ d


/-- A well-formed line whose current value is one of its listed values, once
these are trimmed. -/
def ListedLine (line : GoString) : Prop :=
  ∃ l : OptionLine, line = l.text ∧ l.WellFormed ∧ l.current ∈ l.values.map strings_TrimSpace

/-- The three lines of the fixture of `TestParseDeviceOptionConstraints`. -/
def testLines : List OptionLine :=
  [{ name := "mode".toList,
     values := ["24bit Color[Fast]".toList, "Black & White".toList, "True Gray".toList,
       "Gray[Error Diffusion]".toList],
     current := "24bit Color[Fast]".toList },
   { name := "resolution".toList,
     values := ["100".toList, "150".toList, "200".toList, "300".toList, "400".toList,
       "600".toList, "1200dpi".toList],
     current := "100".toList },
   { name := "source".toList,
     values := ["Automatic Document Feeder(left aligned)".toList],
     current := "Automatic Document Feeder(left aligned)".toList }]

/-! ## Auxiliary definitions of the proofs -/

/-- What the last round of the inner loop does to the state. -/
def lastRound (parsedOpt constraint : GoString) (st : ParseState) : ParseState :=
  match FindStringSubmatch constraint with
  | [_, m1, m2] =>
    { results := appendResult st.results parsedOpt (strings_TrimSpace m1),
      defaults := st.defaults.set parsedOpt m2 }
  | _ => st

/-- The values of a line with the leading blank put in front of the first. -/
def blankFirst : List GoString → List GoString
  | [] => []
  | v :: vs => (' ' :: v) :: vs

/-! ## Lemmas -/

/-! ### `getDevices` and `filepath.Ext` -/

theorem fieldsLoop_ge (i : Nat) (hi : 5 ≤ i) (vs : List GoString) (d : ScannerDevice) :
    fieldsLoop i vs d = d := by
  induction vs generalizing i d with
  | nil => rfl
  | cons v vs ih =>
    have h : setField d i v = d := by
      unfold setField
      split <;> first | omega | rfl
    rw [fieldsLoop, h, ih (i + 1) (by omega)]

theorem fieldsLoop_zero (values : List GoString) :
    fieldsLoop 0 values ScannerDevice.zero =
      { Device := values.getD 0 [], Vendor := values.getD 1 [], Model := values.getD 2 [],
        Type_ := values.getD 3 [], Index := values.getD 4 [] } := by
  rcases values with _ | ⟨a, _ | ⟨b, _ | ⟨c, _ | ⟨d, _ | ⟨e, rest⟩⟩⟩⟩⟩ <;>
    simp [fieldsLoop, setField, ScannerDevice.zero, fieldsLoop_ge]

theorem deviceStep_eq (acc : List ScannerDevice) (r : GoString) :
    deviceStep acc r = if firstField r = [] then acc else acc ++ [recordDevice r] := by
  simp only [deviceStep, fieldsLoop_zero, firstField, recordDevice]

theorem foldl_deviceStep (records : List GoString) (acc : List ScannerDevice) :
    records.foldl deviceStep acc =
      acc ++ (records.filter (fun r => decide (firstField r ≠ []))).map recordDevice := by
  induction records generalizing acc with
  | nil => simp
  | cons r rs ih =>
    rw [List.foldl_cons, ih, deviceStep_eq]
    by_cases h : firstField r = [] <;> simp [h]
theorem extLoop_spec (before after : GoString) :
    extLoop before after =
      if '.' ∈ before.takeWhile (fun c => decide (c ≠ '/')) then
        '.' :: ((before.takeWhile (fun c => decide (c ≠ '.'))).reverse ++ after)
      else [] := by
  induction before generalizing after with
  | nil => simp [extLoop]
  | cons c cs ih =>
    unfold extLoop
    by_cases h1 : c = '/'
    · simp [h1]
    · by_cases h2 : c = '.'
      · simp [h2]
      · rw [if_neg h1, if_neg h2, ih]
        have h3 : ¬ '.' = c := fun h => h2 h.symm
        simp [h1, h2, h3]

theorem takeWhile_dot_of_mem (r : GoString)
    (h : '.' ∈ r.takeWhile (fun c => decide (c ≠ '/'))) :
    (r.takeWhile (fun c => decide (c ≠ '/'))).takeWhile (fun c => decide (c ≠ '.')) =
      r.takeWhile (fun c => decide (c ≠ '.')) := by
  induction r with
  | nil => simp
  | cons c cs ih =>
    simp only [ne_eq, decide_not] at ih h ⊢
    by_cases h1 : c = '/'
    · simp [h1] at h
    · by_cases h2 : c = '.'
      · simp [h1, h2]
      · have h3 : ¬ '.' = c := fun h => h2 h.symm
        simp [h1, h3] at h
        simp [h1, h2, ih h]

theorem filepath_Ext_eq_extensionOf (s : GoString) : filepath_Ext s = extensionOf s := by
  unfold filepath_Ext extensionOf lastPathElement
  rw [extLoop_spec]
  simp only [List.mem_reverse, List.reverse_reverse, List.append_nil]
  split
  · next h => rw [takeWhile_dot_of_mem _ h]
  · rfl
/-! ### Maps -/

theorem GoMap.set_same {V : Type} (m : GoMap V) (k : GoString) (v : V) : (m.set k v) k = some v := by
  simp [GoMap.set]

theorem GoMap.set_other {V : Type} (m : GoMap V) (k k' : GoString) (v : V) (h : k' ≠ k) :
    (m.set k v) k' = m k' := by
  simp [GoMap.set, h]

theorem GoMap.set_set {V : Type} (m : GoMap V) (k : GoString) (v w : V) :
    (m.set k v).set k w = m.set k w := by
  funext k'
  by_cases h : k' = k <;> simp [GoMap.set, h]

theorem GoMap.set_of_eq {V : Type} (m : GoMap V) (k : GoString) (v : V) (h : m k = some v) :
    m.set k v = m := by
  funext k'
  by_cases h' : k' = k
  · subst h'; simp [GoMap.set, h]
  · simp [GoMap.set, h']

/-! ### `strings.Index` -/

theorem strings_Index_nil (sep : GoString) (hsep : sep ≠ []) : strings_Index [] sep = none := by
  simp [strings_Index, hsep]

theorem strings_Index_of_isPrefix (s sep : GoString) (h : sep <+: s) : strings_Index s sep = some 0 := by
  cases s with
  | nil => simp [strings_Index, List.prefix_nil.mp h]
  | cons c cs =>
    have : sep.isPrefixOf (c :: cs) = true := List.isPrefixOf_iff_prefix.mpr h
    simp [strings_Index, this]

theorem strings_Index_none (s sep : GoString) (h : ¬ sep <:+: s) : strings_Index s sep = none := by
  induction s with
  | nil =>
    have : sep ≠ [] := fun h0 => h (h0 ▸ List.nil_infix)
    simp [strings_Index, this]
  | cons c cs ih =>
    have h1 : sep.isPrefixOf (c :: cs) = false := by
      apply Bool.eq_false_iff.mpr
      intro hp
      exact h (List.isPrefixOf_iff_prefix.mp hp).isInfix
    have h2 : ¬ sep <:+: cs := fun hi => h (hi.trans (List.suffix_cons c cs).isInfix)
    simp [strings_Index, h1, ih h2]

theorem strings_Index_char (a b : GoString) (c : Char) (h : c ∉ a) :
    strings_Index (a ++ c :: b) [c] = some a.length := by
  induction a with
  | nil => simp [strings_Index]
  | cons x xs ih =>
    have hx : ¬ c = x := fun e => h (e ▸ List.mem_cons_self _ _)
    have hxs : c ∉ xs := fun e => h (List.mem_cons_of_mem _ e)
    have h2 := ih hxs
    simp [strings_Index, hx, h2]

theorem strings_Index_char_none (s : GoString) (c : Char) (h : c ∉ s) :
    strings_Index s [c] = none := by
  induction s with
  | nil => simp [strings_Index]
  | cons x xs ih =>
    have hx : ¬ c = x := fun e => h (e ▸ List.mem_cons_self _ _)
    have hxs : c ∉ xs := fun e => h (List.mem_cons_of_mem _ e)
    simp [strings_Index, hx, ih hxs]

/-! ### `strings.Split` -/

theorem genSplitLoop_fuel (sep : GoString) (hsep : sep ≠ []) (n m : Nat) (s : GoString)
    (hn : s.length ≤ n) (hm : s.length ≤ m) : genSplitLoop sep n s = genSplitLoop sep m s := by
  induction n generalizing m s with
  | zero =>
    have hs : s = [] := List.length_eq_zero.mp (Nat.le_zero.mp hn)
    subst hs
    cases m <;> simp [genSplitLoop, strings_Index_nil sep hsep]
  | succ n ih =>
    cases m with
    | zero =>
      have hs : s = [] := List.length_eq_zero.mp (Nat.le_zero.mp hm)
      subst hs
      simp [genSplitLoop, strings_Index_nil sep hsep]
    | succ m =>
      simp only [genSplitLoop]
      cases hI : strings_Index s sep with
      | none => rfl
      | some k =>
        have hne : s ≠ [] := by
          intro h0
          rw [h0, strings_Index_nil sep hsep] at hI
          exact Option.noConfusion hI
        have h1 : 0 < s.length := List.length_pos.mpr hne
        have h2 : 0 < sep.length := List.length_pos.mpr hsep
        have h3 : (s.drop (k + sep.length)).length ≤ n := by
          rw [List.length_drop]; omega
        have h4 : (s.drop (k + sep.length)).length ≤ m := by
          rw [List.length_drop]; omega
        simp only []
        rw [ih m _ h3 h4]

theorem genSplitLoop_ne_nil (sep : GoString) (n : Nat) (s : GoString) :
    genSplitLoop sep n s ≠ [] := by
  cases n with
  | zero => simp [genSplitLoop]
  | succ n =>
    simp only [genSplitLoop]
    cases strings_Index s sep <;> simp

theorem strings_Split_ne_nil (s sep : GoString) (hsep : sep ≠ []) : strings_Split s sep ≠ [] := by
  simp [strings_Split, hsep, genSplitLoop_ne_nil]

theorem strings_Split_of_index_none (s sep : GoString) (hsep : sep ≠ [])
    (h : strings_Index s sep = none) : strings_Split s sep = [s] := by
  unfold strings_Split
  rw [if_neg hsep]
  cases s.length <;> simp [genSplitLoop, h]

theorem strings_Split_of_index_some (s sep : GoString) (hsep : sep ≠ []) (k : Nat)
    (h : strings_Index s sep = some k) :
    strings_Split s sep = s.take k :: strings_Split (s.drop (k + sep.length)) sep := by
  unfold strings_Split
  rw [if_neg hsep, if_neg hsep]
  have hne : s ≠ [] := by
    intro h0
    rw [h0, strings_Index_nil sep hsep] at h
    exact Option.noConfusion h
  have h1 : 0 < s.length := List.length_pos.mpr hne
  have h2 : 0 < sep.length := List.length_pos.mpr hsep
  obtain ⟨n, hn⟩ : ∃ n, s.length = n + 1 := ⟨s.length - 1, by omega⟩
  rw [hn]
  simp only [genSplitLoop, h]
  congr 1
  apply genSplitLoop_fuel sep hsep
  · rw [List.length_drop]; omega
  · exact le_rfl

theorem strings_Split_no_occurrence (s sep : GoString) (hsep : sep ≠ []) (h : ¬ sep <:+: s) :
    strings_Split s sep = [s] :=
  strings_Split_of_index_none s sep hsep (strings_Index_none s sep h)

theorem strings_Split_append_self (sep b : GoString) (hsep : sep ≠ []) :
    strings_Split (sep ++ b) sep = [] :: strings_Split b sep := by
  rw [strings_Split_of_index_some _ sep hsep 0 (strings_Index_of_isPrefix _ _ (List.prefix_append _ _))]
  simp

theorem strings_Split_char (a b : GoString) (c : Char) (h : c ∉ a) :
    strings_Split (a ++ c :: b) [c] = a :: strings_Split b [c] := by
  rw [strings_Split_of_index_some _ [c] (by simp) a.length (strings_Index_char a b c h)]
  simp

theorem strings_Split_char_none (s : GoString) (c : Char) (h : c ∉ s) :
    strings_Split s [c] = [s] :=
  strings_Split_of_index_none s [c] (by simp) (strings_Index_char_none s c h)

/-! ### `strings.TrimSpace` -/

theorem unicode_IsSpace_space : unicode_IsSpace ' ' = true := by decide

theorem unicode_IsSpace_rbracket : unicode_IsSpace ']' = false := by decide

theorem strings_TrimSpace_space_cons (s : GoString) :
    strings_TrimSpace (' ' :: s) = strings_TrimSpace s := by
  simp [strings_TrimSpace, List.dropWhile_cons, unicode_IsSpace_space]

theorem strings_TrimSpace_nil : strings_TrimSpace [] = [] := by
  simp [strings_TrimSpace]

theorem strings_TrimSpace_eq_self (x : Char) (s : GoString) (hx : unicode_IsSpace x = false) :
    strings_TrimSpace (x :: s ++ [']']) = x :: s ++ [']'] := by
  unfold strings_TrimSpace
  rw [List.cons_append, List.dropWhile_cons_of_neg (by simp [hx]), ← List.cons_append,
    List.rdropWhile_concat_neg _ _ _ (by simp [unicode_IsSpace_rbracket])]

/-! ### The regular expression -/

theorem tryLongest_of_some {α : Type} (f : Nat → Option α) (n : Nat) (r : α) (h : f n = some r) :
    tryLongest f n = some r := by
  cases n <;> simp [tryLongest, h]

theorem tryLongest_skip {α : Type} (f : Nat → Option α) (k n : Nat) (hk : k ≤ n)
    (h : ∀ j, k < j → j ≤ n → f j = none) : tryLongest f n = tryLongest f k := by
  induction n with
  | zero =>
    have : k = 0 := Nat.le_zero.mp hk
    rw [this]
  | succ n ih =>
    by_cases hkn : k = n + 1
    · rw [hkn]
    · have h1 : f (n + 1) = none := h (n + 1) (by omega) le_rfl
      simp only [tryLongest, h1]
      exact ih (by omega) (fun j hj hjn => h j hj (by omega))

theorem tryLongest_exists {α : Type} (f : Nat → Option α) (n : Nat) (r : α)
    (h : tryLongest f n = some r) : ∃ k, k ≤ n ∧ f k = some r := by
  induction n with
  | zero => exact ⟨0, le_rfl, h⟩
  | succ n ih =>
    simp only [tryLongest] at h
    cases hf : f (n + 1) with
    | some x =>
      rw [hf] at h
      exact ⟨n + 1, le_rfl, by rw [hf]; exact h⟩
    | none =>
      rw [hf] at h
      obtain ⟨k, hk, hfk⟩ := ih h
      exact ⟨k, by omega, hfk⟩

theorem tryLongest_isSome {α : Type} (f : Nat → Option α) (k n : Nat) (hk : k ≤ n)
    (h : (f k).isSome) : (tryLongest f n).isSome := by
  induction n with
  | zero =>
    have : k = 0 := Nat.le_zero.mp hk
    subst this
    exact h
  | succ n ih =>
    simp only [tryLongest]
    cases hf : f (n + 1) with
    | some x => rfl
    | none =>
      have hkn : k ≠ n + 1 := by
        intro e
        rw [e, hf] at h
        exact Bool.noConfusion h
      exact ih (by omega)

theorem takeWhile_no_newline (s : GoString) (h : '\n' ∉ s) :
    s.takeWhile (fun c => decide (c ≠ '\n')) = s := by
  rw [List.takeWhile_eq_self_iff]
  intro c hc
  have : c ≠ '\n' := fun e => h (e ▸ hc)
  simp [this]

/-- Matching of `(.*)\]$` against `d]`: the group takes all of `d`. -/
theorem reMatch_tail (d : GoString) (hd : '\n' ∉ d) :
    reMatch [ReItem.anyStarGroup, ReItem.lit ']', ReItem.endText] (d ++ [']']) = some [d] := by
  have hnl : '\n' ∉ d ++ [']'] := by simp [hd]
  simp only [reMatch]
  rw [takeWhile_no_newline _ hnl]
  rw [tryLongest_skip _ d.length (d ++ [']']).length (by simp)]
  · apply tryLongest_of_some
    simp
  · intro j hj hjn
    have : j = d.length + 1 := by simp at hjn; omega
    subst this
    simp

theorem reMatch_group (p : List ReItem) (s : GoString) :
    reMatch (ReItem.anyStarGroup :: p) s =
      tryLongest (fun k => (reMatch p (s.drop k)).map (fun caps => s.take k :: caps))
        (s.takeWhile (fun c => decide (c ≠ '\n'))).length := by
  rw [reMatch]

theorem reMatch_lits_cons (a b : Char) (p : List ReItem) (t : GoString) :
    reMatch (ReItem.lit a :: ReItem.lit b :: p) (a :: b :: t) = reMatch p t := by
  simp [reMatch]

theorem reMatch_lits_none (a b : Char) (p : List ReItem) (s : GoString)
    (h : ∀ t, s ≠ a :: b :: t) : reMatch (ReItem.lit a :: ReItem.lit b :: p) s = none := by
  rcases s with _ | ⟨x, _ | ⟨y, t⟩⟩
  · simp [reMatch]
  · simp [reMatch]
  · by_cases hx : x = a
    · by_cases hy : y = b
      · exact absurd (by rw [hx, hy]) (h t)
      · simp [reMatch, hy]
    · simp [reMatch, hx]

/-- Behind the bracket that opens the default no further ` [` begins. -/
theorem no_later_bracket (d : GoString) (hd : ¬ [' ', '['] <:+: d) (i : Nat) (t : GoString) :
    ('[' :: (d ++ [']'])).drop i ≠ ' ' :: '[' :: t := by
  intro h
  have hsuf : (' ' :: '[' :: t) <:+ '[' :: (d ++ [']']) := h ▸ List.drop_suffix i _
  obtain ⟨pre, hpre⟩ := hsuf
  cases pre with
  | nil => simp at hpre
  | cons x pre' =>
    simp only [List.cons_append, List.cons.injEq] at hpre
    obtain ⟨_, h2⟩ := hpre
    rcases List.eq_nil_or_concat t with h0 | ⟨t', y, hy⟩
    · subst h0
      have h3 : (pre' ++ [' ']) ++ ['['] = d ++ [']'] := by simpa using h2
      have h4 := List.append_inj_right' h3 rfl
      simp at h4
    · subst hy
      have h3 : (pre' ++ ' ' :: '[' :: t') ++ [y] = d ++ [']'] := by simpa using h2
      have h4 := List.append_inj_left' h3 rfl
      exact hd ⟨pre', t', by simpa using h4⟩

/-- The match of the pattern on `p [d]`: the first group is `p` and the second
is `d`, when neither holds a newline and ` [` does not occur in `d`. -/
theorem reMatch_optionRe (p d : GoString) (hp : '\n' ∉ p) (hd : '\n' ∉ d)
    (hb : ¬ [' ', '['] <:+: d) :
    reMatch optionRe (p ++ ' ' :: '[' :: (d ++ [']'])) = some [p, d] := by
  have hnl : '\n' ∉ p ++ ' ' :: '[' :: (d ++ [']']) := by simp [hp, hd]
  unfold optionRe
  rw [reMatch_group, takeWhile_no_newline _ hnl]
  rw [tryLongest_skip _ p.length _ (by simp)]
  · apply tryLongest_of_some
    simp [reMatch_lits_cons, reMatch_tail d hd]
  · intro j hj hjn
    have hdrop : (p ++ ' ' :: '[' :: (d ++ [']'])).drop j
        = ('[' :: (d ++ [']'])).drop (j - p.length - 1) := by
      rw [List.drop_append_eq_append_drop, List.drop_of_length_le (by omega), List.nil_append]
      obtain ⟨i, hi⟩ : ∃ i, j - p.length = i + 1 := ⟨j - p.length - 1, by omega⟩
      rw [hi, List.drop_succ_cons]
      simp
    simp only [Option.map_eq_none']
    rw [hdrop]
    exact reMatch_lits_none _ _ _ _ (fun t => no_later_bracket d hb _ t)

theorem FindStringSubmatch_wellFormed (p d : GoString) (hp : '\n' ∉ p) (hd : '\n' ∉ d)
    (hb : ¬ [' ', '['] <:+: d) :
    FindStringSubmatch (p ++ ' ' :: '[' :: (d ++ [']'])) = [p ++ ' ' :: '[' :: (d ++ [']']), p, d] := by
  simp [FindStringSubmatch, reMatch_optionRe p d hp hd hb]

/-- Whatever the text, the result of `FindStringSubmatch` has length 0 or 3. -/
theorem FindStringSubmatch_shape (s : GoString) :
    FindStringSubmatch s = [] ∨ ∃ m1 m2, FindStringSubmatch s = [s, m1, m2] := by
  unfold FindStringSubmatch
  cases h : reMatch optionRe s with
  | none => exact Or.inl rfl
  | some caps =>
    right
    unfold optionRe at h
    rw [reMatch_group] at h
    obtain ⟨k, _, hk⟩ := tryLongest_exists _ _ _ h
    simp only [Option.map_eq_some'] at hk
    obtain ⟨caps1, h1, hc⟩ := hk
    rcases hs : s.drop k with _ | ⟨x, _ | ⟨y, t⟩⟩
    · rw [hs] at h1; simp [reMatch] at h1
    · rw [hs] at h1; simp [reMatch] at h1
    · rw [hs] at h1
      simp only [reMatch] at h1
      split at h1
      · split at h1
        · obtain ⟨k2, _, hk2⟩ := tryLongest_exists _ _ _ h1
          simp only [Option.map_eq_some'] at hk2
          obtain ⟨caps2, h2, hc2⟩ := hk2
          have : caps2 = [] := by
            rcases ht : t.drop k2 with _ | ⟨z, u⟩
            · rw [ht] at h2; simp at h2
            · rw [ht] at h2
              by_cases hz : z = ']'
              · by_cases hu : u = []
                · simpa [hz, hu] using h2.symm
                · simp [hz, hu] at h2
              · simp [hz] at h2
          subst this
          exact ⟨s.take k, t.take k2, by simp [← hc, ← hc2]⟩
        · exact Option.noConfusion h1
      · exact Option.noConfusion h1

/-- A newline-free text of the shape `p [d]` matches the pattern. -/
theorem FindStringSubmatch_matches (p d : GoString) (hp : '\n' ∉ p) (hd : '\n' ∉ d) :
    ∃ m1 m2, FindStringSubmatch (p ++ ' ' :: '[' :: (d ++ [']'])) =
      [p ++ ' ' :: '[' :: (d ++ [']']), m1, m2] := by
  rcases FindStringSubmatch_shape (p ++ ' ' :: '[' :: (d ++ [']'])) with h | h
  · exfalso
    have hnl : '\n' ∉ p ++ ' ' :: '[' :: (d ++ [']']) := by simp [hp, hd]
    have hsome : (reMatch optionRe (p ++ ' ' :: '[' :: (d ++ [']']))).isSome := by
      unfold optionRe
      rw [reMatch_group, takeWhile_no_newline _ hnl]
      apply tryLongest_isSome _ p.length _ (by simp)
      simp [reMatch_lits_cons, reMatch_tail d hd]
    unfold FindStringSubmatch at h
    cases hr : reMatch optionRe (p ++ ' ' :: '[' :: (d ++ [']'])) with
    | none => rw [hr] at hsome; exact Bool.noConfusion hsome
    | some caps => rw [hr] at h; simp at h
  · exact h

/-! ### The inner loop -/

theorem constraintsLoop_concat (parsedOpt : GoString) (pre : List GoString) (last : GoString)
    (i : Nat) (st : ParseState) (old : List GoString) (h : st.results parsedOpt = some old) :
    constraintsLoop parsedOpt (i + pre.length + 1) i (pre ++ [last]) st =
      lastRound parsedOpt last
        { st with results := st.results.set parsedOpt (old ++ pre.map strings_TrimSpace) } := by
  induction pre generalizing i st old with
  | nil =>
    simp only [List.nil_append, List.length_nil, List.map_nil, List.append_nil, Nat.add_zero]
    rw [GoMap.set_of_eq _ _ _ h]
    simp only [constraintsLoop, Nat.add_sub_cancel, if_true, lastRound]
  | cons c cs ih =>
    have hne : ¬ i = i + (c :: cs).length + 1 - 1 := by simp
    rw [List.cons_append, constraintsLoop, if_neg hne]
    have hlen : i + (c :: cs).length + 1 = (i + 1) + cs.length + 1 := by simp; omega
    rw [hlen, ih (i + 1) _ (old ++ [strings_TrimSpace c])
      (by simp [appendResult, GoMap.set_same, h])]
    simp [appendResult, GoMap.set_set]

theorem lastRound_of_match (parsedOpt constraint whole m1 m2 : GoString) (st : ParseState)
    (h : FindStringSubmatch constraint = [whole, m1, m2]) :
    lastRound parsedOpt constraint st =
      { results := appendResult st.results parsedOpt (strings_TrimSpace m1),
        defaults := st.defaults.set parsedOpt m2 } := by
  simp [lastRound, h]

theorem lastRound_of_no_match (parsedOpt constraint : GoString) (st : ParseState)
    (h : FindStringSubmatch constraint = []) : lastRound parsedOpt constraint st = st := by
  simp [lastRound, h]

/-! ### One line with an option name -/

/-- A trimmed line `name rest...]` whose name holds no white space and does not
recur: the name is found, the text behind it is split at `|`, and the inner
loop runs on the pieces. -/
theorem parseLine_named (st : ParseState) (name t : GoString) (hne : name ≠ [])
    (hsp : ∀ c ∈ name, unicode_IsSpace c = false) (hrec : ¬ name <:+: ' ' :: (t ++ [']'])) :
    parseLine st (name ++ ' ' :: (t ++ [']'])) =
      constraintsLoop name (strings_Split (' ' :: (t ++ [']'])) ['|']).length 0
        (strings_Split (' ' :: (t ++ [']'])) ['|'])
        { st with results := st.results.set name [] } := by
  obtain ⟨x, xs, rfl⟩ := List.exists_cons_of_ne_nil hne
  have hx : unicode_IsSpace x = false := hsp x (List.mem_cons_self _ _)
  have htrim : strings_TrimSpace ((x :: xs) ++ ' ' :: (t ++ [']'])) =
      (x :: xs) ++ ' ' :: (t ++ [']']) := by
    have := strings_TrimSpace_eq_self x (xs ++ ' ' :: t) hx
    simpa using this
  have hnosp : ' ' ∉ x :: xs := by
    intro hmem
    have := hsp ' ' hmem
    rw [unicode_IsSpace_space] at this
    exact Bool.noConfusion this
  have hsplit1 : strings_Split ((x :: xs) ++ ' ' :: (t ++ [']'])) [' '] =
      (x :: xs) :: strings_Split (t ++ [']']) [' '] := strings_Split_char _ _ _ hnosp
  have hlen1 : ¬ (strings_Split ((x :: xs) ++ ' ' :: (t ++ [']'])) [' ']).length ≤ 1 := by
    rw [hsplit1]
    have := List.length_pos.mpr (strings_Split_ne_nil (t ++ [']']) [' '] (by simp))
    simp only [List.length_cons]
    omega
  have hsplit2 : strings_Split ((x :: xs) ++ ' ' :: (t ++ [']'])) (x :: xs) =
      [[], ' ' :: (t ++ [']'])] := by
    rw [strings_Split_append_self _ _ (by simp),
      strings_Split_no_occurrence _ _ (by simp) hrec]
  have hlen2 : ¬ (strings_Split (' ' :: (t ++ [']'])) ['|']).length = 0 := by
    have := List.length_pos.mpr (strings_Split_ne_nil (' ' :: (t ++ [']'])) ['|'] (by simp))
    omega
  unfold parseLine
  simp only [htrim]
  rw [if_neg hlen1]
  simp only [hsplit1, List.getD_cons_zero, hsplit2, List.getD_cons_succ]
  rw [if_neg hlen2]

/-! ### Well-formed lines -/

theorem intercalate_singleton (sep x : GoString) : List.intercalate sep [x] = x := by
  simp [List.intercalate]

theorem intercalate_cons_cons (sep x y : GoString) (l : List GoString) :
    List.intercalate sep (x :: y :: l) = x ++ sep ++ List.intercalate sep (y :: l) := by
  simp [List.intercalate]

theorem strings_Split_intercalate (vals : List GoString) (hne : vals ≠ []) (t : GoString)
    (hv : ∀ x ∈ vals, '|' ∉ x) (ht : '|' ∉ t) :
    strings_Split (List.intercalate ['|'] vals ++ t) ['|'] =
      vals.dropLast ++ [vals.getLast hne ++ t] := by
  induction vals with
  | nil => exact absurd rfl hne
  | cons x l ih =>
    cases l with
    | nil =>
      rw [intercalate_singleton]
      have hx : '|' ∉ x ++ t := by simp [hv x (List.mem_cons_self _ _), ht]
      simp [strings_Split_char_none _ _ hx]
    | cons y l =>
      rw [intercalate_cons_cons]
      have hx : '|' ∉ x := hv x (List.mem_cons_self _ _)
      have h1 : x ++ ['|'] ++ List.intercalate ['|'] (y :: l) ++ t =
          x ++ '|' :: (List.intercalate ['|'] (y :: l) ++ t) := by simp
      rw [h1, strings_Split_char _ _ _ hx,
        ih (by simp) (fun z hz => hv z (List.mem_cons_of_mem _ hz))]
      simp [List.getLast_cons]

theorem blankFirst_ne_nil (vals : List GoString) (h : vals ≠ []) : blankFirst vals ≠ [] := by
  cases vals with
  | nil => exact absurd rfl h
  | cons v vs => simp [blankFirst]

theorem intercalate_blankFirst (vals : List GoString) (h : vals ≠ []) :
    List.intercalate ['|'] (blankFirst vals) = ' ' :: List.intercalate ['|'] vals := by
  rcases vals with _ | ⟨v, _ | ⟨w, l⟩⟩
  · exact absurd rfl h
  · simp [blankFirst, List.intercalate]
  · simp [blankFirst, List.intercalate]

theorem map_trim_blankFirst (vals : List GoString) :
    (blankFirst vals).map strings_TrimSpace = vals.map strings_TrimSpace := by
  cases vals with
  | nil => rfl
  | cons v vs => simp [blankFirst, strings_TrimSpace_space_cons]

theorem mem_blankFirst (vals : List GoString) (c : Char) (hc : c ≠ ' ')
    (h : ∀ v ∈ vals, c ∉ v) : ∀ v ∈ blankFirst vals, c ∉ v := by
  cases vals with
  | nil => simp [blankFirst]
  | cons v vs =>
    intro w hw
    simp only [blankFirst, List.mem_cons] at hw
    rcases hw with rfl | hw
    · simp [hc, h v (List.mem_cons_self _ _)]
    · exact h w (List.mem_cons_of_mem _ hw)

/-- The effect of the loop body on a well-formed line: the option receives its
trimmed values and its current value. -/
theorem parseLine_wellFormed (st : ParseState) (l : OptionLine) (h : l.WellFormed) :
    parseLine st l.text =
      { results := st.results.set l.name (l.values.map strings_TrimSpace),
        defaults := st.defaults.set l.name l.current } := by
  obtain ⟨hvals, hname, hsp, hrec, ⟨hd1, hd2, hd3⟩, hv⟩ := h
  have hbne := blankFirst_ne_nil l.values hvals
  have hrest : l.rest = ' ' :: ((List.intercalate ['|'] l.values ++ [' ', '['] ++ l.current) ++ [']']) := by
    simp [OptionLine.rest]
  have hrest2 : l.rest = List.intercalate ['|'] (blankFirst l.values) ++
      ([' ', '['] ++ l.current ++ [']']) := by
    rw [intercalate_blankFirst _ hvals]
    simp [OptionLine.rest]
  have htail : '|' ∉ [' ', '['] ++ l.current ++ [']'] := by simp [hd1]
  have hsplit : strings_Split l.rest ['|'] =
      (blankFirst l.values).dropLast ++
        [(blankFirst l.values).getLast hbne ++ ' ' :: '[' :: (l.current ++ [']'])] := by
    rw [hrest2, strings_Split_intercalate _ hbne _
      (mem_blankFirst _ '|' (by decide) (fun v hv' => (hv v hv').1)) htail]
    simp
  have hlastnl : '\n' ∉ (blankFirst l.values).getLast hbne :=
    mem_blankFirst _ '\n' (by decide) (fun v hv' => (hv v hv').2.1) _ (List.getLast_mem hbne)
  unfold OptionLine.text
  rw [hrest] at hrec ⊢
  rw [parseLine_named st l.name _ hname hsp hrec, ← hrest, hsplit]
  have hlen : ((blankFirst l.values).dropLast ++
      [(blankFirst l.values).getLast hbne ++ ' ' :: '[' :: (l.current ++ [']'])]).length =
      0 + (blankFirst l.values).dropLast.length + 1 := by simp
  rw [hlen, constraintsLoop_concat l.name _ _ 0 _ [] (by simp [GoMap.set_same]),
    lastRound_of_match _ _ _ _ _ _ (FindStringSubmatch_wellFormed _ _ hlastnl hd2 hd3)]
  have hmap : (blankFirst l.values).dropLast.map strings_TrimSpace ++
      [strings_TrimSpace ((blankFirst l.values).getLast hbne)] =
      l.values.map strings_TrimSpace := by
    calc (blankFirst l.values).dropLast.map strings_TrimSpace ++
          [strings_TrimSpace ((blankFirst l.values).getLast hbne)]
        = ((blankFirst l.values).dropLast ++ [(blankFirst l.values).getLast hbne]).map
            strings_TrimSpace := by simp
      _ = (blankFirst l.values).map strings_TrimSpace := by
          rw [List.dropLast_append_getLast hbne]
      _ = l.values.map strings_TrimSpace := map_trim_blankFirst _
  simp only [appendResult, GoMap.set_same, GoMap.set_set, Option.getD_some, List.nil_append, hmap]

theorem foldl_parseLine_wellFormed (ls : List OptionLine) (hwf : ∀ l ∈ ls, l.WellFormed)
    (hnd : (ls.map OptionLine.name).Nodup) (st : ParseState) :
    (∀ l ∈ ls,
        ((ls.map OptionLine.text).foldl parseLine st).results l.name =
            some (l.values.map strings_TrimSpace) ∧
          ((ls.map OptionLine.text).foldl parseLine st).defaults l.name = some l.current) ∧
      ∀ k, k ∉ ls.map OptionLine.name →
        ((ls.map OptionLine.text).foldl parseLine st).results k = st.results k ∧
          ((ls.map OptionLine.text).foldl parseLine st).defaults k = st.defaults k := by
  induction ls generalizing st with
  | nil => simp
  | cons l ls ih =>
    have hl : l.WellFormed := hwf l (List.mem_cons_self _ _)
    have hwf' : ∀ l' ∈ ls, l'.WellFormed := fun l' h' => hwf l' (List.mem_cons_of_mem _ h')
    rw [List.map_cons, List.nodup_cons] at hnd
    obtain ⟨hnotin, hnd'⟩ := hnd
    rw [List.map_cons, List.foldl_cons, parseLine_wellFormed st l hl]
    obtain ⟨ih1, ih2⟩ := ih hwf' hnd'
      { results := st.results.set l.name (l.values.map strings_TrimSpace),
        defaults := st.defaults.set l.name l.current }
    constructor
    · intro l' hl'
      rcases List.mem_cons.mp hl' with rfl | hmem
      · have := ih2 l'.name hnotin
        simpa [GoMap.set_same] using this
      · exact ih1 l' hmem
    · intro k hk
      rw [List.map_cons, List.mem_cons, not_or] at hk
      obtain ⟨hk1, hk2⟩ := hk
      have := ih2 k hk2
      simpa [GoMap.set_other _ _ _ _ hk1] using this

/-! ### Keys of the two maps -/

theorem appendResult_ne_none (results : GoMap (List GoString)) (p v k : GoString)
    (h : results k ≠ none) : appendResult results p v k ≠ none := by
  unfold appendResult GoMap.set
  split
  · simp
  · exact h

theorem appendResult_same_ne_none (results : GoMap (List GoString)) (p v : GoString) :
    appendResult results p v p ≠ none := by
  simp [appendResult, GoMap.set]

theorem constraintsLoop_keys (p : GoString) (n : Nat) (cs : List GoString) (i : Nat)
    (st : ParseState) (hp : st.results p ≠ none)
    (hk : ∀ k, st.defaults k ≠ none → st.results k ≠ none) :
    ∀ k, (constraintsLoop p n i cs st).defaults k ≠ none →
      (constraintsLoop p n i cs st).results k ≠ none := by
  induction cs generalizing i st with
  | nil => simpa [constraintsLoop] using hk
  | cons c cs ih =>
    unfold constraintsLoop
    split
    · split
      · apply ih
        · exact appendResult_same_ne_none _ _ _
        · intro k hd
          by_cases hkp : k = p
          · rw [hkp]; exact appendResult_same_ne_none _ _ _
          · apply appendResult_ne_none
            apply hk
            simpa [GoMap.set, hkp] using hd
      · exact ih _ _ hp hk
    · apply ih
      · exact appendResult_same_ne_none _ _ _
      · intro k hd
        exact appendResult_ne_none _ _ _ _ (hk k hd)

theorem parseLine_keys (st : ParseState) (line : GoString)
    (hk : ∀ k, st.defaults k ≠ none → st.results k ≠ none) :
    ∀ k, (parseLine st line).defaults k ≠ none → (parseLine st line).results k ≠ none := by
  unfold parseLine
  simp only []
  split
  · exact hk
  · split
    · exact hk
    · apply constraintsLoop_keys
      · simp [GoMap.set]
      · intro k hd
        simp only [GoMap.set]
        split
        · simp
        · exact hk k hd

theorem foldl_parseLine_keys (out : List GoString) (st : ParseState)
    (hk : ∀ k, st.defaults k ≠ none → st.results k ≠ none) :
    ∀ k, (out.foldl parseLine st).defaults k ≠ none → (out.foldl parseLine st).results k ≠ none := by
  induction out generalizing st with
  | nil => exact hk
  | cons line out ih => exact ih _ (parseLine_keys st line hk)

/-! ### Lines with a bracketed current value, and skipped lines -/

theorem strings_Split_char_last (c : Char) (t : GoString) (ht : c ∉ t) (a p : GoString)
    (hp : c ∉ p) :
    ∃ pre seg, strings_Split (p ++ a ++ t) [c] = pre ++ [seg ++ t] ∧ seg <:+ p ++ a := by
  induction a generalizing p with
  | nil =>
    refine ⟨[], p, ?_, by simp⟩
    have : c ∉ p ++ t := by simp [hp, ht]
    simp [strings_Split_char_none _ _ this]
  | cons x a ih =>
    by_cases hx : x = c
    · subst hx
      obtain ⟨pre, seg, h1, h2⟩ := ih [] (by simp)
      refine ⟨p :: pre, seg, ?_, ?_⟩
      · have : p ++ x :: a ++ t = p ++ x :: ([] ++ a ++ t) := by simp
        rw [this, strings_Split_char _ _ _ hp, h1]
        simp
      · have h3 : seg <:+ a := by simpa using h2
        exact h3.trans ((List.suffix_cons x a).trans (List.suffix_append p _))
    · have hp' : c ∉ p ++ [x] := by
        simp [hp]
        exact fun e => hx e.symm
      obtain ⟨pre, seg, h1, h2⟩ := ih (p ++ [x]) hp'
      refine ⟨pre, seg, ?_, ?_⟩
      · have : p ++ x :: a ++ t = p ++ [x] ++ a ++ t := by simp
        rw [this, h1]
      · simpa using h2

theorem parseLine_skipped (st : ParseState) (line : GoString) (h : SkippedLine line) :
    parseLine st line = st := by
  unfold parseLine
  simp only []
  rw [strings_Split_char_none _ _ h]
  simp

theorem parseLine_bracketed (st : ParseState) (line : GoString) (h : BracketedLine line) :
    ∃ name vs m2, parseLine st line =
      { results := st.results.set name vs, defaults := st.defaults.set name m2 } := by
  obtain ⟨name, mid, d, rfl, hname, hsp, hmid, hrec, hnl1, hnl2, hbar⟩ := h
  have htail : '|' ∉ ' ' :: '[' :: (d ++ [']']) := by simp [hbar]
  obtain ⟨pre, seg, hsplit, hseg⟩ := strings_Split_char_last '|' _ htail mid [] (by simp)
  have hsegnl : '\n' ∉ seg := fun hm => hnl1 (by simpa using hseg.subset hm)
  obtain ⟨m1, m2, hm⟩ := FindStringSubmatch_matches seg d hsegnl hnl2
  obtain ⟨t, ht⟩ : ∃ t, mid ++ [' ', '['] ++ d ++ [']'] = ' ' :: (t ++ [']']) := by
    rcases hmid with h0 | ⟨m, h0⟩
    · exact ⟨'[' :: d, by simp [h0]⟩
    · exact ⟨m ++ ' ' :: '[' :: d, by simp [h0]⟩
  have hline : name ++ mid ++ [' ', '['] ++ d ++ [']'] = name ++ ' ' :: (t ++ [']']) := by
    rw [← ht]; simp
  have hsplit' : strings_Split (' ' :: (t ++ [']'])) ['|'] =
      pre ++ [seg ++ ' ' :: '[' :: (d ++ [']'])] := by
    rw [← ht, ← hsplit]; simp
  rw [ht] at hrec
  refine ⟨name, pre.map strings_TrimSpace ++ [strings_TrimSpace m1], m2, ?_⟩
  rw [hline, parseLine_named st name t hname hsp hrec, hsplit']
  have hlen : (pre ++ [seg ++ ' ' :: '[' :: (d ++ [']'])]).length = 0 + pre.length + 1 := by simp
  rw [hlen, constraintsLoop_concat name _ _ 0 _ [] (by simp [GoMap.set_same]),
    lastRound_of_match _ _ _ _ _ _ hm]
  simp only [appendResult, GoMap.set_same, GoMap.set_set, Option.getD_some, List.nil_append]

theorem foldl_parseLine_bracketed (out : List GoString)
    (h : ∀ line ∈ out, SkippedLine line ∨ BracketedLine line) (st : ParseState)
    (hk : ∀ k, st.results k ≠ none → st.defaults k ≠ none) :
    ∀ k, (out.foldl parseLine st).results k ≠ none → (out.foldl parseLine st).defaults k ≠ none := by
  induction out generalizing st with
  | nil => exact hk
  | cons line out ih =>
    rw [List.foldl_cons]
    apply ih (fun l hl => h l (List.mem_cons_of_mem _ hl))
    rcases h line (List.mem_cons_self _ _) with hs | hb
    · rw [parseLine_skipped st line hs]; exact hk
    · obtain ⟨name, vs, m2, heq⟩ := parseLine_bracketed st line hb
      rw [heq]
      intro k hr
      simp only [GoMap.set] at hr ⊢
      split
      · simp
      · next hne => rw [if_neg hne] at hr; exact hk k hr

/-- The effect of the loop body on a line `name [d]`, which lists no value: the
value list of the option is the one-element list holding the empty string. -/
theorem parseLine_no_values (st : ParseState) (name d : GoString) (hname : name ≠ [])
    (hsp : ∀ c ∈ name, unicode_IsSpace c = false)
    (hrec : ¬ name <:+: [' ', '['] ++ d ++ [']']) (hbar : '|' ∉ d) (hnl : '\n' ∉ d)
    (hb : ¬ [' ', '['] <:+: d) :
    parseLine st (name ++ [' ', '['] ++ d ++ [']']) =
      { results := st.results.set name [[]], defaults := st.defaults.set name d } := by
  have hline : name ++ [' ', '['] ++ d ++ [']'] = name ++ ' ' :: (('[' :: d) ++ [']']) := by simp
  have hrec' : ¬ name <:+: ' ' :: (('[' :: d) ++ [']']) := by simpa using hrec
  have hnobar : '|' ∉ ' ' :: (('[' :: d) ++ [']']) := by simp [hbar]
  rw [hline, parseLine_named st name _ hname hsp hrec', strings_Split_char_none _ _ hnobar]
  have hm := FindStringSubmatch_wellFormed [] d (by simp) hnl hb
  have hc := constraintsLoop_concat name [] (' ' :: (('[' :: d) ++ [']'])) 0
    { st with results := st.results.set name [] } [] (by simp [GoMap.set_same])
  simp only [List.length_nil, Nat.add_zero, Nat.zero_add, List.nil_append, List.map_nil,
    List.append_nil, List.cons_append] at hc hm
  simp only [List.length_singleton, List.cons_append]
  rw [hc, lastRound_of_match _ _ _ _ _ _ hm]
  simp [appendResult, GoMap.set_same, GoMap.set_set, strings_TrimSpace_nil]

/-! ### The two index expressions of the loop body are in range -/

theorem strings_TrimSpace_head (s : GoString) (x : Char) (xs : GoString)
    (h : strings_TrimSpace s = x :: xs) : unicode_IsSpace x = false := by
  unfold strings_TrimSpace at h
  have hpre : x :: xs <+: s.dropWhile unicode_IsSpace := h ▸ List.rdropWhile_prefix unicode_IsSpace (s.dropWhile unicode_IsSpace)
  obtain ⟨t, ht⟩ := hpre
  have hne : s.dropWhile unicode_IsSpace ≠ [] := by rw [← ht]; simp
  have h1 := List.head_dropWhile_not unicode_IsSpace s hne
  have h2 : (s.dropWhile unicode_IsSpace).head hne = x := by
    simp only [← ht, List.cons_append, List.head_cons]
  rw [h2] at h1
  exact h1

theorem strings_Index_char_zero (s : GoString) (c : Char) (h : strings_Index s [c] = some 0) :
    ∃ t, s = c :: t := by
  cases s with
  | nil => simp [strings_Index] at h
  | cons x xs =>
    by_cases hx : c = x
    · exact ⟨xs, by rw [hx]⟩
    · simp [strings_Index, hx] at h

/-- The expression `strings.Split(opt, parsedOpt)[1]` never fails: when the
trimmed line has at least two fields, splitting it at its first field gives at
least two pieces. -/
theorem withoutOpt_in_range (line : GoString)
    (h : 1 < (strings_Split (strings_TrimSpace line) [' ']).length) :
    1 < (strings_Split (strings_TrimSpace line)
      ((strings_Split (strings_TrimSpace line) [' ']).getD 0 [])).length := by
  generalize hopt : strings_TrimSpace line = opt at h ⊢
  cases hI : strings_Index opt [' '] with
  | none =>
    rw [strings_Split_of_index_none _ _ (by simp) hI] at h
    simp at h
  | some m =>
    rw [strings_Split_of_index_some _ _ (by simp) m hI, List.getD_cons_zero]
    have hne : opt ≠ [] := by
      intro h0
      rw [h0] at hI
      simp [strings_Index] at hI
    obtain ⟨x, xs, hx⟩ := List.exists_cons_of_ne_nil hne
    have hm : m ≠ 0 := by
      intro h0
      rw [h0] at hI
      obtain ⟨t, ht⟩ := strings_Index_char_zero _ _ hI
      have := strings_TrimSpace_head line ' ' t (by rw [hopt, ht])
      rw [unicode_IsSpace_space] at this
      exact Bool.noConfusion this
    have htake : opt.take m ≠ [] := by
      obtain ⟨j, hj⟩ := Nat.exists_eq_succ_of_ne_zero hm
      rw [hx, hj]
      simp
    rw [strings_Split_of_index_some _ _ htake 0
      (strings_Index_of_isPrefix _ _ (List.take_prefix m opt))]
    have := List.length_pos.mpr (strings_Split_ne_nil
      (opt.drop (0 + (opt.take m).length)) (opt.take m) htake)
    simp only [List.length_cons]
    omega

/-- The result of `getFileType` is one of the four extensions, dot included, or
the empty string. -/
theorem getFileType_range (s : GoString) : getFileType s ∈ knownExtensions ∨ getFileType s = [] := by
  unfold getFileType knownExtensions
  simp only []
  split
  · next h => left; rw [h]; simp
  · split
    · next h => left; rw [h]; simp
    · split
      · next h => left; rw [h]; simp
      · split
        · next h => left; rw [h]; simp
        · right; rfl

/-- On a screen with non-zero sides `isPortrait` returns true exactly when the
width is at most the height. -/
theorem isPortrait_eq (width height : Int) (hw : width ≠ 0) (hh : height ≠ 0) :
    isPortrait width height = Except.ok (decide (width ≤ height)) := by
  unfold isPortrait
  rw [if_neg (by simp [hw, hh])]
  by_cases h : width > height
  · rw [if_pos h]; simp; omega
  · rw [if_neg h]; simp; omega

/-! ### Lines whose current value is listed -/

theorem foldl_parseLine_listed (out : List GoString)
    (h : ∀ line ∈ out, SkippedLine line ∨ ListedLine line) (st : ParseState)
    (hk : ∀ k d, st.defaults k = some d → ∃ vs, st.results k = some vs ∧ d ∈ vs) :
    ∀ k d, (out.foldl parseLine st).defaults k = some d →
      ∃ vs, (out.foldl parseLine st).results k = some vs ∧ d ∈ vs := by
  induction out generalizing st with
  | nil => exact hk
  | cons line out ih =>
    rw [List.foldl_cons]
    apply ih (fun l hl => h l (List.mem_cons_of_mem _ hl))
    rcases h line (List.mem_cons_self _ _) with hs | ⟨l, rfl, hwf, hcur⟩
    · rw [parseLine_skipped st line hs]; exact hk
    · rw [parseLine_wellFormed st l hwf]
      intro k d hd
      by_cases hkl : k = l.name
      · subst hkl
        have hd' : some l.current = some d := by
          rw [← hd]
          exact (GoMap.set_same _ _ _).symm
        refine ⟨l.values.map strings_TrimSpace, GoMap.set_same _ _ _, ?_⟩
        rw [← Option.some.inj hd']
        exact hcur
      · have hd' : st.defaults k = some d := by
          rw [← hd]
          exact (GoMap.set_other _ _ _ _ hkl).symm
        obtain ⟨vs, hvs, hmem⟩ := hk k d hd'
        exact ⟨vs, (GoMap.set_other _ _ _ _ hkl).trans hvs, hmem⟩

/-! ## The claims -/

set_option maxRecDepth 100000

/-- C1: on a list of well-formed lines `name v1|...|vn [d]` with pairwise distinct
names, `parseDeviceOptionConstraints` maps each name to its values in order,
each trimmed, and to its current value `d`, and the two maps have no other
keys. -/
theorem parseDeviceOptionConstraints_wellFormed (ls : List OptionLine)
    (hwf : ∀ l ∈ ls, l.WellFormed) (hnd : (ls.map OptionLine.name).Nodup) :
    (∀ l ∈ ls,
        (parseDeviceOptionConstraints (ls.map OptionLine.text)).results l.name =
            some (l.values.map strings_TrimSpace) ∧
          (parseDeviceOptionConstraints (ls.map OptionLine.text)).defaults l.name =
            some l.current) ∧
      ∀ k, k ∉ ls.map OptionLine.name →
        (parseDeviceOptionConstraints (ls.map OptionLine.text)).results k = none ∧
          (parseDeviceOptionConstraints (ls.map OptionLine.text)).defaults k = none :=
  foldl_parseLine_wellFormed ls hwf hnd { results := GoMap.empty, defaults := GoMap.empty }

/-- Witness of C1: the fixture of the test of the repository is a list of
well-formed lines with distinct names, and the parser returns its values. -/
theorem parseDeviceOptionConstraints_wellFormed_witness :
    (∀ l ∈ testLines, l.WellFormed) ∧ (testLines.map OptionLine.name).Nodup ∧
      ((∀ l ∈ testLines,
          (parseDeviceOptionConstraints (testLines.map OptionLine.text)).results l.name =
              some (l.values.map strings_TrimSpace) ∧
            (parseDeviceOptionConstraints (testLines.map OptionLine.text)).defaults l.name =
              some l.current) ∧
        ∀ k, k ∉ testLines.map OptionLine.name →
          (parseDeviceOptionConstraints (testLines.map OptionLine.text)).results k = none ∧
            (parseDeviceOptionConstraints (testLines.map OptionLine.text)).defaults k = none) :=
  ⟨by decide, by decide, parseDeviceOptionConstraints_wellFormed testLines (by decide) (by decide)⟩

/-- The texts of `testLines` are the three input lines of the fixture. -/
theorem testLines_text :
    testLines.map OptionLine.text =
      ["mode 24bit Color[Fast]|Black & White|True Gray|Gray[Error Diffusion] [24bit Color[Fast]]".toList,
        "resolution 100|150|200|300|400|600|1200dpi [100]".toList,
        "source Automatic Document Feeder(left aligned) [Automatic Document Feeder(left aligned)]".toList] := by
  decide

/-- C2, counterexample: on the single line `x a [b]` the option `x` has the
default `b` and the value list `[a]`, which does not hold `b`. -/
theorem default_not_among_values :
    (parseDeviceOptionConstraints ["x a [b]".toList]).defaults "x".toList = some "b".toList ∧
      (parseDeviceOptionConstraints ["x a [b]".toList]).results "x".toList = some ["a".toList] ∧
      "b".toList ∉ ["a".toList] := by
  decide

/-- C2, amended: when every line of the input is either skipped (no blank in it
once trimmed) or a well-formed line whose current value is one of its listed
values after trimming (`ListedLine`), every option that has a default has a
value list, and the default is one of its entries. -/
theorem default_among_values_of_listed (out : List GoString)
    (h : ∀ line ∈ out, SkippedLine line ∨ ListedLine line) (k d : GoString)
    (hd : (parseDeviceOptionConstraints out).defaults k = some d) :
    ∃ vs, (parseDeviceOptionConstraints out).results k = some vs ∧ d ∈ vs :=
  foldl_parseLine_listed out h { results := GoMap.empty, defaults := GoMap.empty }
    (fun _ _ h0 => Option.noConfusion h0) k d hd

/-- Witness of the amended C2: the three lines of the fixture of the test
followed by an empty line, the option `resolution` and its default `100`. -/
theorem default_among_values_of_listed_witness :
    ∃ vs, (parseDeviceOptionConstraints (testLines.map OptionLine.text ++ [[]])).results
        "resolution".toList = some vs ∧ "100".toList ∈ vs :=
  default_among_values_of_listed (testLines.map OptionLine.text ++ [[]])
    (by
      intro line hl
      rcases List.mem_append.mp hl with hl | hl
      · obtain ⟨l, hmem, rfl⟩ := List.mem_map.mp hl
        have hall : ∀ l ∈ testLines,
            l.WellFormed ∧ l.current ∈ l.values.map strings_TrimSpace := by decide
        exact Or.inr ⟨l, rfl, (hall l hmem).1, (hall l hmem).2⟩
      · rw [List.mem_singleton.mp hl]
        exact Or.inl (by decide))
    "resolution".toList "100".toList (by decide)

/-- C3, counterexample: on the single line `x y` the option `x` is a key of the
value-list map (with the empty list) and not a key of the defaults map. -/
theorem option_without_default :
    (parseDeviceOptionConstraints ["x y".toList]).results "x".toList = some [] ∧
      (parseDeviceOptionConstraints ["x y".toList]).defaults "x".toList = none := by
  decide

/-- C3, amended: when every line of the input is either skipped (no blank in it
once trimmed) or ends in a bracketed current value (`BracketedLine`), every
key of the value-list map is a key of the defaults map. -/
theorem results_keys_have_defaults_of_bracketed (out : List GoString)
    (h : ∀ line ∈ out, SkippedLine line ∨ BracketedLine line) (k : GoString)
    (hk : (parseDeviceOptionConstraints out).results k ≠ none) :
    (parseDeviceOptionConstraints out).defaults k ≠ none :=
  foldl_parseLine_bracketed out h { results := GoMap.empty, defaults := GoMap.empty }
    (fun _ h0 => absurd rfl h0) k hk

/-- Witness of the amended C3: a line whose last value has no bracketed
default shape of its own but is followed by one, an empty line and a line
without values. -/
theorem results_keys_have_defaults_of_bracketed_witness :
    (parseDeviceOptionConstraints
        ["mode a [b|c [d]".toList, [], "preview [no]".toList]).defaults "mode".toList ≠ none :=
  results_keys_have_defaults_of_bracketed
    ["mode a [b|c [d]".toList, [], "preview [no]".toList]
    (by
      intro line hl
      simp only [List.mem_cons, List.mem_singleton, List.not_mem_nil, or_false] at hl
      rcases hl with rfl | rfl | rfl
      · exact Or.inr ⟨"mode".toList, " a [b|c".toList, "d".toList, by decide, by decide,
          by decide, Or.inr ⟨"a [b|c".toList, by decide⟩, by decide, by decide, by decide,
          by decide⟩
      · exact Or.inl (by decide)
      · exact Or.inr ⟨"preview".toList, [], "no".toList, by decide, by decide, by decide,
          Or.inl rfl, by decide, by decide, by decide, by decide⟩)
    "mode".toList (by decide)

/-- C4: every key of the defaults map returned by `parseDeviceOptionConstraints`
is a key of the returned value-list map, whatever the input. -/
theorem defaults_keys_have_results (out : List GoString) (k : GoString)
    (hk : (parseDeviceOptionConstraints out).defaults k ≠ none) :
    (parseDeviceOptionConstraints out).results k ≠ none :=
  foldl_parseLine_keys out { results := GoMap.empty, defaults := GoMap.empty }
    (fun _ h0 => absurd rfl h0) k hk

/-- Witness of C4: the line `x a [b]` and its option `x`. -/
theorem defaults_keys_have_results_witness :
    (parseDeviceOptionConstraints ["x a [b]".toList]).defaults "x".toList ≠ none ∧
      (parseDeviceOptionConstraints ["x a [b]".toList]).results "x".toList ≠ none :=
  ⟨by decide, defaults_keys_have_results ["x a [b]".toList] "x".toList (by decide)⟩

/-- C5, the code at a square screen: for a work area of 1000 by 1000 `isPortrait`
returns true, where its docstring and the claim say false. -/
theorem isPortrait_square : isPortrait 1000 1000 = Except.ok true := by
  rfl

/-- C6, the code at `scan.png`: `getFileType` returns the extension with its
leading dot, `.png`, which is neither empty nor one of the format names `png`,
`jpg`, `jpeg`, `pdf`. -/
theorem getFileType_keeps_dot :
    getFileType "scan.png".toList = ".png".toList ∧
      getFileType "scan.png".toList ∉ formatNames ∧ getFileType "scan.png".toList ≠ [] := by
  decide

/-- C7: `getFileType s` is the empty string if and only if the extension of `s`
(the text from the last `.` of the last path element on) is not one of `.png`,
`.jpg`, `.jpeg`, `.pdf`. -/
theorem getFileType_eq_nil_iff (s : GoString) :
    getFileType s = [] ↔ extensionOf s ∉ knownExtensions := by
  unfold getFileType
  simp only [filepath_Ext_eq_extensionOf, knownExtensions]
  constructor
  · intro h hmem
    simp only [List.mem_cons, List.mem_singleton, List.not_mem_nil, or_false] at hmem
    rcases hmem with e | e | e | e <;> rw [e] at h <;> simp at h
  · intro h
    simp only [List.mem_cons, List.mem_singleton, List.not_mem_nil, or_false, not_or] at h
    obtain ⟨h1, h2, h3, h4⟩ := h
    rw [if_neg h1, if_neg h2, if_neg h3, if_neg h4]

/-- C8, the code at the call made by `getDevices` (no stdin, a stdout buffer 1, a
stderr buffer 2): the standard error of the command is the stdout buffer and
not the stderr buffer that was supplied. -/
theorem RunCommand_stderr_is_stdout :
    RunCommand none (some 1) (some 2) = { Stdin := none, Stdout := some 1, Stderr := some 1 } ∧
      (RunCommand none (some 1) (some 2)).Stderr ≠ some 2 := by
  decide

/-- C9: `getDevices` returns, in the order of the records, the device of every
`;;;`-separated record whose first `||`-separated field is non-empty, a
device being the first five fields of its record; every device returned has
a non-empty `Device`. -/
theorem getDevices_spec (ob : GoString) :
    getDevices ob =
        ((strings_Split ob [';', ';', ';']).filter (fun r => decide (firstField r ≠ []))).map
          recordDevice ∧
      ∀ dev ∈ getDevices ob, dev.Device ≠ [] := by
  have h : getDevices ob =
      ((strings_Split ob [';', ';', ';']).filter (fun r => decide (firstField r ≠ []))).map
        recordDevice := by
    unfold getDevices
    rw [foldl_deviceStep]
    simp
  refine ⟨h, ?_⟩
  intro dev hdev
  rw [h] at hdev
  obtain ⟨r, hr, rfl⟩ := List.mem_map.mp hdev
  have := (List.mem_filter.mp hr).2
  simpa [firstField, recordDevice] using this

/-- C10, the code on a line `name [d]` that lists no value: the value list of
the option is the one-element list holding the empty string, of length 1 and
not 0, and its default is `d`. -/
theorem parseDeviceOptionConstraints_no_values (name d : GoString) (hname : name ≠ [])
    (hsp : ∀ c ∈ name, unicode_IsSpace c = false)
    (hrec : ¬ name <:+: [' ', '['] ++ d ++ [']']) (hbar : '|' ∉ d) (hnl : '\n' ∉ d)
    (hb : ¬ [' ', '['] <:+: d) :
    (parseDeviceOptionConstraints [name ++ [' ', '['] ++ d ++ [']']]).results name = some [[]] ∧
      (parseDeviceOptionConstraints [name ++ [' ', '['] ++ d ++ [']']]).defaults name = some d := by
  unfold parseDeviceOptionConstraints
  rw [List.foldl_cons, List.foldl_nil, parseLine_no_values _ name d hname hsp hrec hbar hnl hb]
  simp [GoMap.set_same]

/-- Witness of C10: the line `preview [no]`. -/
theorem parseDeviceOptionConstraints_no_values_witness :
    (parseDeviceOptionConstraints ["preview [no]".toList]).results "preview".toList =
        some [[]] ∧
      (parseDeviceOptionConstraints ["preview [no]".toList]).defaults "preview".toList =
        some "no".toList :=
  parseDeviceOptionConstraints_no_values "preview".toList "no".toList (by decide) (by decide)
    (by decide) (by decide) (by decide) (by decide)

end GoFltkSane
